import Mathlib

/-!
Verification of the host-side core of `bfs-dpu/host/bfs.c` (BFS over a fleet of
PIM compute units).  The definitions below are a shallow embedding of the C
source: C arrays that are mutated in place are modelled as total functions
`Nat → Nat` updated pointwise (`updF`), machine integers are modelled as `Nat`
with an explicit `% 2 ^ 32` wherever the 32-bit C arithmetic can wrap (the
`mram_addr_t` bump pointer, and the `uint32_t` index arithmetic of
`print_node_levels`), and loops become `List.foldl` over the same iteration
spaces the C loops traverse.  Each numbered theorem settles one claim about
the program.
-/

/-- Pointwise update of a function modelling an in-place array store
`g[i] = v`. -/
def updF (g : Nat → Nat) (i v : Nat) : Nat → Nat :=
  fun j => if j = i then v else g j

/-- Embedding of `nearest_factors`'s trial-division loop (bfs.c lines 203-209):
starting from `f` and counting down, return the first `f` that divides `n`
(the C loop `while (n % f != 0) f--;`).  The `0` case is unreachable for
`n ≥ 1` because `1` divides `n`. -/
def findFactor (n : Nat) : Nat → Nat
  | 0 => 0
  | f + 1 => if n % (f + 1) = 0 then f + 1 else findFactor n f

/-- `⌊√n⌋`, the value of `(uint32_t)sqrt(n)` in bfs.c line 204: the largest
`k` with `k * k ≤ n`, computed by an executable upward scan. -/
def floorSqrt (n : Nat) : Nat :=
  (List.range (n + 1)).foldl (fun acc k => if k * k ≤ n then k else acc) 0

/-- Embedding of `nearest_factors` (bfs.c lines 203-209).  The C code computes
`f = (uint32_t)sqrt(n)` with floating point; for the unit counts used here
that is exactly `⌊√n⌋`. -/
def nearest_factors (n : Nat) : Nat × Nat :=
  let f := findFactor n (floorSqrt n)
  (f, n / f)

/-- The C guard in `parse_args` case `'n'` (bfs.c line 220) is
`num_dpu == 0 || *num_dpu % 8 != 0`, where `num_dpu` is the *pointer*
parameter (the address of a file-scope global), which is never null.  So the
first disjunct is the constant `false`. -/
def numDpuPointerIsNull : Bool := false

/-- Embedding of the `-n` validation in `parse_args` (bfs.c lines 219-223):
`true` iff the program prints the configuration error and exits.  `v` is the
parsed `-n` value as stored into the `uint32_t` global. -/
def numDpuOptionRejects (v : Nat) : Bool :=
  numDpuPointerIsNull || v % 8 != 0

/-- Embedding of the node-count padding in `load_coo` (bfs.c lines 315-324):
pad `num_nodes` up to a multiple of `n`, then pad the per-partition chunk
`num_nodes / n` up to a multiple of 32. -/
def padNodes (num_nodes n : Nat) : Nat :=
  let nn := if num_nodes % n != 0 then num_nodes + (n - num_nodes % n) else num_nodes
  let chunk_size := nn / n
  if chunk_size % 32 != 0 then (chunk_size + (32 - chunk_size % 32)) * n else nn

/-- The `enum Partition` of bfs.c (lines 75-79); `_2D` is spelled `TwoD`. -/
inductive Prt
  | Row
  | Col
  | TwoD
deriving DecidableEq

/-- An `struct COO` edge list (bfs.c lines 81-87); `num_edges` is
`edges.length` and the two index arrays are the list of
`(row_idx, col_idx)` pairs. -/
structure COO where
  num_rows : Nat
  num_cols : Nat
  edges : List (Nat × Nat)
deriving DecidableEq

/-- `row_div` as set by `partition_coo`'s switch (bfs.c lines 380-416). -/
def rowDivOf (prt : Prt) (n : Nat) : Nat :=
  match prt with
  | .Row => n
  | .Col => 1
  | .TwoD => (nearest_factors n).1

/-- `col_div` as set by `partition_coo`'s switch (bfs.c lines 380-416). -/
def colDivOf (prt : Prt) (n : Nat) : Nat :=
  match prt with
  | .Row => 1
  | .Col => n
  | .TwoD => (nearest_factors n).2

/-- `offset_row` as set by `partition_coo`'s switch. -/
def offsetRowOf (prt : Prt) : Bool :=
  match prt with
  | .Row => true
  | .Col => false
  | .TwoD => true

/-- `offset_col` as set by `partition_coo`'s switch. -/
def offsetColOf (prt : Prt) : Bool :=
  match prt with
  | .Row => false
  | .Col => true
  | .TwoD => true

/-- The destination partition of one edge, as computed in both passes of
`partition_coo` (bfs.c lines 385-414 and 432-442).  `pr_rows`/`pr_cols` are
the per-partition extents (`num_rows`/`num_cols` after the division). -/
def edgePart (prt : Prt) (pr_rows pr_cols col_div : Nat) (e : Nat × Nat) : Nat :=
  match prt with
  | .Row => e.1 / pr_rows
  | .Col => e.2 / pr_cols
  | .TwoD => e.1 / pr_rows * col_div + e.2 / pr_cols

/-- Row offset of partition `p` (bfs.c line 452):
`offset_row ? p / col_div * num_rows : 0`. -/
def rowOffset (offset_row : Bool) (col_div pr_rows p : Nat) : Nat :=
  if offset_row then p / col_div * pr_rows else 0

/-- Column offset of partition `p` (bfs.c line 453):
`offset_col ? p % col_div * num_cols : 0`. -/
def colOffset (offset_col : Bool) (col_div pr_cols p : Nat) : Nat :=
  if offset_col then p % col_div * pr_cols else 0

/-- The binning pass of `partition_coo` (bfs.c lines 428-448): every edge is
appended, in input order, at the write cursor of its destination partition.
The partition buffers are modelled as a function from partition index to the
list of edges binned so far. -/
def binEdges (f : Nat × Nat → Nat) (edges : List (Nat × Nat)) : Nat → List (Nat × Nat) :=
  edges.foldl (fun B e => fun q => if q = f e then B q ++ [e] else B q) (fun _ => [])

/-- The counting pass of `partition_coo` (bfs.c lines 385-414), used by the C
code only to size the `malloc`s of the partition buffers. -/
def countPass (f : Nat × Nat → Nat) (edges : List (Nat × Nat)) : Nat → Nat :=
  edges.foldl (fun cnt e => updF cnt (f e) (cnt (f e) + 1)) (fun _ => 0)

/-- Embedding of `partition_coo` (bfs.c lines 362-462): count/bin the edges by
partition, then rebase each partition's indices by subtracting its row/col
offsets (bfs.c lines 451-459). -/
def partition_coo (coo : COO) (n : Nat) (prt : Prt) : List COO :=
  let pr_rows := coo.num_rows / rowDivOf prt n
  let pr_cols := coo.num_cols / colDivOf prt n
  let cd := colDivOf prt n
  let B := binEdges (edgePart prt pr_rows pr_cols cd) coo.edges
  (List.range n).map (fun p =>
    let ro := rowOffset (offsetRowOf prt) cd pr_rows p
    let co := colOffset (offsetColOf prt) cd pr_cols p
    { num_rows := pr_rows
      num_cols := pr_cols
      edges := (B p).map (fun e => (e.1 - ro, e.2 - co)) })

/-- The merge update in `print_node_levels` (bfs.c lines 594-595):
`if (node_levels[nreal] == 0 || nl_tmp[n] < node_levels[nreal])
   node_levels[nreal] = nl_tmp[n];`. -/
def mergeStep (acc v : Nat) : Nat :=
  if acc = 0 ∨ v < acc then v else acc

/-- Merged level of one global node given the levels the units report for it,
in unit visit order, starting from the `calloc`ed 0. -/
def mergedLevel (reports : List Nat) : Nat :=
  reports.foldl mergeStep 0

/-- The destination index computed in `print_node_levels` (bfs.c line 593):
`nreal = n + i / div * len_nl % total_nodes` (C precedence: the `%` binds the
product, then `n +` is added).  All operands are `uint32_t`, so the product
`i / div * len_nl` is computed mod `2 ^ 32` before the `% total_nodes`, and
the final addition also wraps mod `2 ^ 32`. -/
def nrealIdx (total_nodes len_nl dv i n : Nat) : Nat :=
  (n + i / dv * len_nl % 2 ^ 32 % total_nodes) % 2 ^ 32

/-- The full merge loop of `print_node_levels` (bfs.c lines 586-597): starting
from the `calloc`ed all-zero `node_levels`, fold over the units (in `DPU_FOREACH`
order) and, per unit `i`, over its `len_nl` reported entries. -/
def mergeNodeLevels (total_nodes len_nl dv : Nat) (reports : List (List Nat)) : Nat → Nat :=
  reports.enum.foldl
    (fun NL p =>
      (List.range len_nl).foldl
        (fun NL n =>
          let nreal := nrealIdx total_nodes len_nl dv p.1 n
          let v := p.2.getD n 0
          if NL nreal = 0 ∨ v < NL nreal then updF NL nreal v else NL)
        NL)
    (fun _ => 0)

/-- Modelled from the spec (not the source): the merge the spec describes,
"minimum non-zero wins" over the reports for one node. -/
def minNonzeroLevel (reports : List Nat) : Nat :=
  reports.foldl (fun acc v => if v ≠ 0 ∧ (acc = 0 ∨ v < acc) then v else acc) 0

/-- The output loop of `print_node_levels` (bfs.c lines 604-609) as the list
of `(node, level)` pairs it prints: node ids ascending over
`0 ≤ node < total_nodes`, skipping (`continue`) nodes with `node != 0 &&
level == 0`. -/
def printedPairs (total_nodes : Nat) (NL : Nat → Nat) : List (Nat × Nat) :=
  (List.range total_nodes).filterMap (fun node =>
    if node ≠ 0 ∧ NL node = 0 then none else some (node, NL node))

/-- The whole text output of `print_node_levels` as a list of lines: the
header `node\tlevel` (bfs.c line 580) followed by one tab-separated line per
printed pair (bfs.c line 608). -/
def outputLines (total_nodes : Nat) (NL : Nat → Nat) : List String :=
  "node\tlevel" :: (printedPairs total_nodes NL).map (fun p => toString p.1 ++ "\t" ++ toString p.2)

/-- Byte size advanced by `dpu_insert_mram_array_u32` (bfs.c lines 140-141):
`size = length * sizeof(uint32_t); size += size % 8;`. -/
def insertSize (length : Nat) : Nat :=
  let size := length * 4
  size + size % 8

/-- The bump-pointer advance `p_used_mram_end += size` (bfs.c line 145);
`mram_addr_t` is a 32-bit unsigned integer, so the addition wraps mod
`2 ^ 32`. -/
def advancePtr (p length : Nat) : Nat :=
  (p + insertSize length) % 2 ^ 32

/-- The scatter base of the current-frontier slice for unit `i` in `start_2d`
(bfs.c line 847): `frontier[i / col_div * len_cf]`. -/
def cfSliceStart (col_div len_cf i : Nat) : Nat :=
  i / col_div * len_cf

/-- A `struct CSR` (bfs.c lines 89-95); the `row_ptrs` and `col_idxs` arrays
are modelled as total functions. -/
structure CSR where
  num_rows : Nat
  num_cols : Nat
  num_edges : Nat
  row_ptrs : Nat → Nat
  col_idxs : Nat → Nat

/-- The histogram pass of `coo_to_csr` (bfs.c lines 477-480):
`row_ptrs[row_idx]++` per edge, starting from the `calloc`ed zeros. -/
def histPass (l : List (Nat × Nat)) : Nat → Nat :=
  l.foldl (fun g e => updF g e.1 (g e.1 + 1)) (fun _ => 0)

/-- The in-place exclusive-scan pass of `coo_to_csr` (bfs.c lines 483-488):
the state is `(row_ptrs, sum_before_next_row)`; each step stores the running
sum at `row_idx` and adds this row's old count to the running sum. -/
def scanPass (num_rows : Nat) (g0 : Nat → Nat) : (Nat → Nat) × Nat :=
  (List.range num_rows).foldl (fun st r => (updF st.1 r st.2, st.2 + st.1 r)) (g0, 0)

/-- One step of the scatter pass of `coo_to_csr` (bfs.c lines 492-496): the
state is `(row_ptrs, col_idxs)`; `nnzIdx = row_ptrs[row_idx]++` (post
increment) then `col_idxs[nnzIdx] = coo.col_idxs[i]`. -/
def scatterStep (st : (Nat → Nat) × (Nat → Nat)) (e : Nat × Nat) : (Nat → Nat) × (Nat → Nat) :=
  (updF st.1 e.1 (st.1 e.1 + 1), updF st.2 (st.1 e.1) e.2)

/-- The scatter pass of `coo_to_csr` over all edges; the `malloc`ed
`col_idxs` is modelled as all zeros (every in-range cell is overwritten, as
the correctness proof shows, so the initial contents are irrelevant). -/
def scatterPass (l : List (Nat × Nat)) (rp : Nat → Nat) : (Nat → Nat) × (Nat → Nat) :=
  l.foldl scatterStep (rp, fun _ => 0)

/-- The restore pass of `coo_to_csr` (bfs.c lines 499-501): for
`row_idx = num_rows-1` down to `1`, `row_ptrs[row_idx] = row_ptrs[row_idx-1]`,
then `row_ptrs[0] = 0`.  (The C loop counter is unsigned, so the source
requires `num_rows ≥ 1`; the embedding's iteration list is empty for
`num_rows = 0`.) -/
def restorePass (num_rows : Nat) (g : Nat → Nat) : Nat → Nat :=
  updF (((List.range' 1 (num_rows - 1)).reverse).foldl (fun g r => updF g r (g (r - 1))) g) 0 0

/-- Embedding of `coo_to_csr` (bfs.c lines 465-504). -/
def coo_to_csr (coo : COO) : CSR :=
  let hist := histPass coo.edges
  let ps := scanPass coo.num_rows hist
  let rp := updF ps.1 coo.num_rows ps.2
  let sc := scatterPass coo.edges rp
  { num_rows := coo.num_rows
    num_cols := coo.num_cols
    num_edges := coo.edges.length
    row_ptrs := restorePass coo.num_rows sc.1
    col_idxs := sc.2 }

/-- The edge multiset reconstructed from a CSR matrix:
`(r, col_idxs[k])` for `row_ptrs[r] ≤ k < row_ptrs[r+1]`, per row
`r < num_rows`. -/
def reconstruct (csr : CSR) : List (Nat × Nat) :=
  (List.range csr.num_rows).flatMap (fun r =>
    (List.range' (csr.row_ptrs r) (csr.row_ptrs (r + 1) - csr.row_ptrs r)).map
      (fun k => (r, csr.col_idxs k)))

/-- The multiset union over all partitions of their edges, with each
partition's row/col offset added back to its rebased indices (the inverse of
the rebasing at bfs.c lines 451-459). -/
def unpartition (coo : COO) (n : Nat) (prt : Prt) : List (Nat × Nat) :=
  (List.range n).flatMap (fun p =>
    let ro := rowOffset (offsetRowOf prt) (colDivOf prt n) (coo.num_rows / rowDivOf prt n) p
    let co := colOffset (offsetColOf prt) (colDivOf prt n) (coo.num_cols / colDivOf prt n) p
    (((partition_coo coo n prt).getD p ⟨0, 0, []⟩).edges).map (fun e => (e.1 + ro, e.2 + co)))

/-- Number of edges of `l` whose row index is `r`. -/
def cntRow (l : List (Nat × Nat)) (r : Nat) : Nat :=
  l.countP (fun e => e.1 == r)

/-- Number of edges of `l` whose row index is below `r`. -/
def cntBefore (l : List (Nat × Nat)) (r : Nat) : Nat :=
  l.countP (fun e => decide (e.1 < r))

/-- The column indices of the row-`r` edges of `l`, in input order. -/
def rowBucket (l : List (Nat × Nat)) (r : Nat) : List Nat :=
  (l.filter (fun e => e.1 == r)).map Prod.snd

/-- Example per-unit level reports used to instantiate the hypotheses of the
output-format theorem. -/
def nlExample : Nat → Nat :=
  fun n => [0, 0, 2].getD n 0

/-! ## Theorems -/

/-- Claim C2 (code_bug evidence): the `-n` validation of `parse_args` does
not reject the value 0.  The C guard compares the pointer `num_dpu` (never
null) with 0 instead of `*num_dpu`, so only the `% 8` test is effective and
`-n 0` (or any string `atoi` parses to 0) passes validation and reaches
`dpu_alloc`. -/
theorem parse_args_accepts_zero_units :
    numDpuOptionRejects 0 = false ∧
    ∀ v : Nat, numDpuOptionRejects v = (v % 8 != 0) := by
  constructor
  · rfl
  · intro v
    simp [numDpuOptionRejects, numDpuPointerIsNull]

/-- Claim C1 (counterexample): with two units whose report slices overlap
(both map to offset 0, as grid-row mates do in `print_node_levels` with
`div = 2`), reports `[3, 0]` and `[0, 2]` merge node 0 to `0`, not to the
non-zero minimum `3` of its reports: the later unit's 0 overwrites the
recorded 3. -/
theorem merge_not_min_nonzero_cex :
    mergeNodeLevels 2 2 2 [[3, 0], [0, 2]] 0 = 0 ∧
    minNonzeroLevel [3, 0] = 3 ∧
    mergeNodeLevels 2 2 2 [[3, 0], [0, 2]] 0 ≠ minNonzeroLevel [3, 0] := by
  refine ⟨rfl, rfl, ?_⟩
  decide

/-- Claim C1 (amended): the merged level of a node is a left fold over the
units in visit order in which a reported 0 always resets the merged level to
0 — even over a previously recorded non-zero level — while a non-zero report
`v` replaces a current 0 and otherwise takes the minimum.  Hence the merge is
order-dependent and is not "minimum non-zero wins". -/
theorem mergedLevel_step (reports : List Nat) (v : Nat) :
    mergedLevel (reports ++ [v]) =
      if v = 0 then 0
      else if mergedLevel reports = 0 then v
      else min (mergedLevel reports) v := by
  unfold mergedLevel
  rw [List.foldl_append]
  simp only [List.foldl]
  generalize List.foldl mergeStep 0 reports = a
  unfold mergeStep
  split_ifs <;> omega

/-- Claim C10: the byte size advanced by `dpu_insert_mram_array_u32` is
always a multiple of 8, so the per-unit bump pointer `p_used_mram_end`
(a 32-bit MRAM address, wrapping mod `2^32`) stays 8-byte aligned across any
sequence of u32-array insertions that starts aligned. -/
theorem insert_mram_alignment :
    (∀ L, 8 ∣ insertSize L) ∧
    ∀ (p : Nat) (ls : List Nat), 8 ∣ p → 8 ∣ ls.foldl advancePtr p := by
  have hsize : ∀ L, 8 ∣ insertSize L := by
    intro L
    simp only [insertSize]
    omega
  refine ⟨hsize, ?_⟩
  intro p ls
  induction ls generalizing p with
  | nil => intro h; simpa using h
  | cons l ls ih =>
    intro h
    simp only [List.foldl]
    apply ih
    unfold advancePtr
    rw [Nat.dvd_mod_iff (by norm_num)]
    exact Nat.dvd_add h (hsize l)

/-- Claim C10 witness: a concrete aligned insertion sequence. -/
theorem insert_mram_alignment_witness :
    (8:Nat) ∣ 0 ∧ 8 ∣ [3, 5, 7].foldl advancePtr 0 :=
  ⟨⟨0, rfl⟩, insert_mram_alignment.2 0 [3, 5, 7] ⟨0, rfl⟩⟩

/-- Claim C9 (counterexample): the claim's preconditions hold yet the access
is out of bounds, because the `uint32_t` product `i / div * len_nl` wraps mod
`2 ^ 32`.  The instance is a reachable call site: bottom-up (or edge-centric)
BFS with Row topology calls `print_node_levels(total_nodes = padded,
len_nl = padded, div = 1)`; with `num_dpu = 1368` and padded node count
3151872 (a multiple of `32 * 1368`; about 12.6 MB of levels per unit), unit
`i = 1367` and entry `n = 3151871 < len_nl` give `nreal = 4186111`, which is
not below `total_nodes = 3151872`. -/
theorem nreal_wraps_out_of_bounds_cex :
    (0:Nat) < 3151872 ∧ (3151872:Nat) ∣ 3151872 ∧ (3151871:Nat) < 3151872 ∧
    (1367:Nat) < 1368 ∧
    nrealIdx 3151872 3151872 1 1367 3151871 = 4186111 ∧
    ¬(nrealIdx 3151872 3151872 1 1367 3151871 < 3151872) := by
  refine ⟨by omega, ⟨1, rfl⟩, by omega, by omega, by decide, by decide⟩

/-- Claim C9 (amended): under the call-site preconditions (`len_nl` divides
the positive `total_nodes`, a `uint32_t` value) and the additional condition
that the product `i / div * len_nl` does not overflow `uint32_t`, the
destination index `nreal` is strictly below `total_nodes`, so the access into
the merged `node_levels` array is in bounds.  Without the no-overflow
condition the bound fails (see the counterexample). -/
theorem nreal_in_bounds (total_nodes len_nl dv i n : Nat)
    (hdvd : len_nl ∣ total_nodes) (htot : 0 < total_nodes)
    (htot32 : total_nodes ≤ 2 ^ 32) (hn : n < len_nl)
    (hprod : i / dv * len_nl < 2 ^ 32) :
    nrealIdx total_nodes len_nl dv i n < total_nodes := by
  obtain ⟨m, hm⟩ := hdvd
  subst hm
  have hm0 : 0 < m := by
    rcases Nat.eq_zero_or_pos m with h | h
    · subst h; simp at htot
    · exact h
  unfold nrealIdx
  rw [Nat.mod_eq_of_lt hprod]
  have hmod : i / dv * len_nl % (len_nl * m) = i / dv % m * len_nl := by
    rw [Nat.mul_comm len_nl m]
    exact Nat.mul_mod_mul_right len_nl (i / dv) m
  rw [hmod]
  have hk : i / dv % m < m := Nat.mod_lt _ hm0
  have hlt : n + i / dv % m * len_nl < len_nl * m := by
    calc n + i / dv % m * len_nl < len_nl + i / dv % m * len_nl := by omega
      _ = (i / dv % m + 1) * len_nl := by ring
      _ ≤ m * len_nl := Nat.mul_le_mul_right len_nl (by omega)
      _ = len_nl * m := Nat.mul_comm m len_nl
  rw [Nat.mod_eq_of_lt (Nat.lt_of_lt_of_le hlt htot32)]
  exact hlt

/-- Claim C9 witness: a concrete in-bounds access with a non-overflowing
product. -/
theorem nreal_in_bounds_witness :
    (2:Nat) ∣ 6 ∧ (0:Nat) < 6 ∧ (6:Nat) ≤ 2 ^ 32 ∧ (1:Nat) < 2 ∧
    (5:Nat) / 2 * 2 < 2 ^ 32 ∧ nrealIdx 6 2 2 5 1 < 6 :=
  ⟨⟨3, rfl⟩, by omega, by norm_num, by omega, by norm_num,
    nreal_in_bounds 6 2 2 5 1 ⟨3, rfl⟩ (by omega) (by norm_num) (by omega) (by norm_num)⟩

/-- Claim C7: for the supported unit counts 8, 16 and 32, `nearest_factors`
returns the factor pair `(R, C)` of `N` with `R ≤ C` closest to `√N`
(`R` is the largest divisor of `N` with `R * R ≤ N`), in particular
`(2, 4)` for 8, `(4, 4)` for 16 and `(4, 8)` for 32. -/
theorem nearest_factors_spec :
    (nearest_factors 8 = (2, 4) ∧ (nearest_factors 8).1 * (nearest_factors 8).2 = 8 ∧
      (nearest_factors 8).1 ≤ (nearest_factors 8).2 ∧
      ∀ d < 9, d ∣ 8 → d * d ≤ 8 → d ≤ (nearest_factors 8).1) ∧
    (nearest_factors 16 = (4, 4) ∧ (nearest_factors 16).1 * (nearest_factors 16).2 = 16 ∧
      (nearest_factors 16).1 ≤ (nearest_factors 16).2 ∧
      ∀ d < 17, d ∣ 16 → d * d ≤ 16 → d ≤ (nearest_factors 16).1) ∧
    (nearest_factors 32 = (4, 8) ∧ (nearest_factors 32).1 * (nearest_factors 32).2 = 32 ∧
      (nearest_factors 32).1 ≤ (nearest_factors 32).2 ∧
      ∀ d < 33, d ∣ 32 → d * d ≤ 32 → d ≤ (nearest_factors 32).1) := by
  decide

/-- Claim C7 witness: the divisor-maximality component applied at the
concrete divisor 2 of 8. -/
theorem nearest_factors_spec_witness :
    (2:Nat) < 9 ∧ (2:Nat) ∣ 8 ∧ (2:Nat) * 2 ≤ 8 ∧ (2:Nat) ≤ (nearest_factors 8).1 :=
  ⟨by omega, ⟨4, rfl⟩, by omega,
    nearest_factors_spec.1.2.2.2 2 (by omega) ⟨4, rfl⟩ (by omega)⟩

/-- Claim C5: 2-D grid addressing is row-major and consistent: a unit at grid
position `(p_row, p_col)` has linear index `i = p_row * C + p_col`; the
binning of `partition_coo` sends an edge with those grid coordinates to unit
`i`; the rebasing offsets of unit `i` recover `(p_row, p_col)` via
`i / C` and `i % C`; and the `start_2d` current-frontier scatter places unit
`i`'s slice at `(i / C) * len_cf`. -/
theorem grid_addressing_row_major (C p_row p_col chunk_r chunk_c len_cf r c : Nat)
    (hpc : p_col < C)
    (hr : r / chunk_r = p_row) (hc : c / chunk_c = p_col) :
    edgePart Prt.TwoD chunk_r chunk_c C (r, c) = p_row * C + p_col ∧
    (p_row * C + p_col) / C = p_row ∧
    (p_row * C + p_col) % C = p_col ∧
    rowOffset true C chunk_r (p_row * C + p_col) = p_row * chunk_r ∧
    colOffset true C chunk_c (p_row * C + p_col) = p_col * chunk_c ∧
    cfSliceStart C len_cf (p_row * C + p_col) = p_row * len_cf := by
  have hC : 0 < C := by omega
  have hdiv : (p_row * C + p_col) / C = p_row := by
    rw [Nat.mul_comm p_row C, Nat.mul_add_div hC, Nat.div_eq_of_lt hpc]
    omega
  have hmod : (p_row * C + p_col) % C = p_col := by
    rw [Nat.mul_comm p_row C, Nat.mul_add_mod, Nat.mod_eq_of_lt hpc]
  refine ⟨?_, hdiv, hmod, ?_, ?_, ?_⟩
  · simp [edgePart, hr, hc]
  · simp [rowOffset, hdiv]
  · simp [colOffset, hmod]
  · simp [cfSliceStart, hdiv]

/-- Claim C5 witness: concrete grid position (1, 2) in a 2×4 grid. -/
theorem grid_addressing_row_major_witness :
    (2:Nat) < 4 ∧ (35:Nat) / 32 = 1 ∧ (75:Nat) / 32 = 2 ∧
    edgePart Prt.TwoD 32 32 4 (35, 75) = 1 * 4 + 2 ∧
    cfSliceStart 4 7 (1 * 4 + 2) = 1 * 7 := by
  refine ⟨by omega, by norm_num, by norm_num, ?_, ?_⟩
  · exact (grid_addressing_row_major 4 1 2 32 32 7 35 75 (by omega) (by norm_num)
      (by norm_num)).1
  · exact (grid_addressing_row_major 4 1 2 32 32 7 35 75 (by omega) (by norm_num)
      (by norm_num)).2.2.2.2.2

/-- Rounding `v` up to a multiple of positive `n` (the first padding step of
`load_coo`) lands on `n * c` with `v ≤ n * c ≤ v + (n - 1)`. -/
theorem padNodes_first_step (v n : Nat) (hn : 0 < n) :
    ∃ c, (if v % n != 0 then v + (n - v % n) else v) = n * c ∧
      v ≤ n * c ∧ n * c ≤ v + (n - 1) := by
  have hd := Nat.div_add_mod v n
  have hr : v % n < n := Nat.mod_lt v hn
  by_cases h : v % n = 0
  · refine ⟨v / n, ?_, by omega, by omega⟩
    rw [if_neg (by simp [h])]
    omega
  · refine ⟨v / n + 1, ?_, ?_, ?_⟩
    · rw [if_pos (by simp [h]), Nat.mul_succ]
      omega
    · rw [Nat.mul_succ]
      omega
    · rw [Nat.mul_succ]
      omega

/-- A multiple of `K` in the half-open window `[v, v + K)` is the least
multiple of `K` that is `≥ v`. -/
theorem least_multiple_of_window (K res v : Nat) (hdvd : K ∣ res)
    (hhi : res < v + K) :
    ∀ m, v ≤ m → K ∣ m → res ≤ m := by
  intro m hvm hKm
  by_contra hlt
  push_neg at hlt
  have hsub : K ∣ res - m := Nat.dvd_sub' hdvd hKm
  have : K ≤ res - m := Nat.le_of_dvd (by omega) hsub
  omega

/-- Claim C3 (amended): the padded node count computed by `load_coo` is
divisible by `n` and by 32 — indeed by `32 * n`, making the per-partition
chunk `padded / n` a multiple of 32 — and the padding is the minimum
non-negative amount achieving divisibility of the chunk by 32 (equivalently,
the padded count is the least multiple of `32 * n` that is `≥` the input
count).  It is *not* minimal for plain divisibility by both `n` and 32. -/
theorem padNodes_spec (v n : Nat) (hn : 0 < n) :
    n ∣ padNodes v n ∧ 32 ∣ padNodes v n ∧ v ≤ padNodes v n ∧
    32 * n ∣ padNodes v n ∧
    ∀ m, v ≤ m → 32 * n ∣ m → padNodes v n ≤ m := by
  obtain ⟨c, hc, hlo, hhi⟩ := padNodes_first_step v n hn
  have hpn : padNodes v n =
      if c % 32 != 0 then (c + (32 - c % 32)) * n else n * c := by
    simp only [padNodes, hc, Nat.mul_div_cancel_left c hn]
  have hds := Nat.div_add_mod c 32
  have hrs : c % 32 < 32 := Nat.mod_lt c (by omega)
  have hmain : 32 * n ∣ padNodes v n ∧ v ≤ padNodes v n ∧ padNodes v n < v + 32 * n := by
    rw [hpn]
    by_cases hs : c % 32 = 0
    · rw [if_neg (by simp [hs])]
      have hc32 : c = 32 * (c / 32) := by omega
      refine ⟨⟨c / 32, ?_⟩, hlo, by omega⟩
      calc n * c = n * (32 * (c / 32)) := by rw [← hc32]
        _ = 32 * n * (c / 32) := by ring
    · rw [if_pos (by simp [hs])]
      have hc2 : c + (32 - c % 32) = 32 * (c / 32 + 1) := by omega
      rw [hc2]
      refine ⟨⟨c / 32 + 1, by ring⟩, ?_, ?_⟩
      · have h1 : c ≤ 32 * (c / 32 + 1) := by omega
        have h2 : c * n ≤ 32 * (c / 32 + 1) * n := Nat.mul_le_mul_right n h1
        have h3 : n * c = c * n := Nat.mul_comm n c
        omega
      · have h1 : 32 * (c / 32 + 1) ≤ c + 31 := by omega
        have h4 : 32 * (c / 32 + 1) * n ≤ (c + 31) * n := Nat.mul_le_mul_right n h1
        have h5 : (c + 31) * n = c * n + 31 * n := by ring
        have h3 : n * c = c * n := Nat.mul_comm n c
        omega
  obtain ⟨hdvd, hlo2, hhi2⟩ := hmain
  refine ⟨Dvd.dvd.trans ⟨32, Nat.mul_comm 32 n⟩ hdvd, Dvd.dvd.trans ⟨n, rfl⟩ hdvd,
    hlo2, hdvd, least_multiple_of_window (32 * n) (padNodes v n) v hdvd hhi2⟩

/-- Claim C3 witness: the amended theorem applied at input count 40 with
`n = 8` (padded to 256, the least multiple of `32 * 8 = 256` that is
`≥ 40`). -/
theorem padNodes_spec_witness :
    (0:Nat) < 8 ∧ (8 ∣ padNodes 40 8 ∧ 32 ∣ padNodes 40 8 ∧ 40 ≤ padNodes 40 8 ∧
      32 * 8 ∣ padNodes 40 8 ∧ padNodes 40 8 ≤ 256) := by
  have h := padNodes_spec 40 8 (by omega)
  exact ⟨by omega, h.1, h.2.1, h.2.2.1, h.2.2.2.1,
    h.2.2.2.2 256 (by omega) ⟨1, rfl⟩⟩

/-- Claim C3 (counterexample): padding is *not* the minimum non-negative
amount making the node count divisible by both `n` and 32.  With `n = 8` and
8 input nodes, `load_coo` pads to 256, yet 32 already satisfies both
divisibility requirements and is far smaller. -/
theorem padNodes_not_min_for_both_cex :
    padNodes 8 8 = 256 ∧ (8:Nat) ∣ 32 ∧ (32:Nat) ∣ 32 ∧ (8:Nat) ≤ 32 ∧ (32:Nat) < 256 := by
  refine ⟨rfl, ⟨4, rfl⟩, ⟨1, rfl⟩, by omega, by omega⟩

/-- The print loop's skip condition, rephrased: the emitted pairs are exactly
the kept nodes of `List.range total_nodes`, each paired with its level. -/
theorem printedPairs_eq (total_nodes : Nat) (NL : Nat → Nat) :
    printedPairs total_nodes NL =
      ((List.range total_nodes).filter (fun node => node == 0 || NL node != 0)).map
        (fun node => (node, NL node)) := by
  unfold printedPairs
  induction List.range total_nodes with
  | nil => rfl
  | cons a l ih =>
    by_cases h : a ≠ 0 ∧ NL a = 0
    · have hb : (a == 0 || NL a != 0) = false := by
        obtain ⟨h1, h2⟩ := h
        simp [h1, h2]
      rw [List.filterMap_cons, if_pos h, List.filter_cons, hb]
      simpa using ih
    · have hb : (a == 0 || NL a != 0) = true := by
        by_cases h1 : a = 0
        · simp [h1]
        · have h2 : NL a ≠ 0 := fun h2 => h ⟨h1, h2⟩
          simp [h2]
      rw [List.filterMap_cons, if_neg h, List.filter_cons, hb]
      simpa using ih

/-- Claim C8: the output of `print_node_levels` is the header line
`node\tlevel` followed by one `<node>\t<level>` line per emitted node in
strictly ascending node-id order; a node with id `≠ 0` and merged level 0 is
suppressed, every other node below `total_nodes` is emitted with its merged
level, and node 0 is always emitted, even when its level is 0. -/
theorem print_output_format (total_nodes : Nat) (NL : Nat → Nat)
    (htot : 0 < total_nodes) :
    (outputLines total_nodes NL).head? = some "node\tlevel" ∧
    (outputLines total_nodes NL).tail =
      (printedPairs total_nodes NL).map (fun p => toString p.1 ++ "\t" ++ toString p.2) ∧
    (printedPairs total_nodes NL).map Prod.fst =
      (List.range total_nodes).filter (fun node => node == 0 || NL node != 0) ∧
    List.Pairwise (fun a b => a < b) ((printedPairs total_nodes NL).map Prod.fst) ∧
    (∀ p ∈ printedPairs total_nodes NL, p.2 = NL p.1 ∧ (p.1 ≠ 0 → p.2 ≠ 0)) ∧
    (0, NL 0) ∈ printedPairs total_nodes NL ∧
    ∀ node, node < total_nodes → (node = 0 ∨ NL node ≠ 0) →
      (node, NL node) ∈ printedPairs total_nodes NL := by
  have hfst : (printedPairs total_nodes NL).map Prod.fst =
      (List.range total_nodes).filter (fun node => node == 0 || NL node != 0) := by
    rw [printedPairs_eq, List.map_map]
    have hcomp : Prod.fst ∘ (fun node : Nat => (node, NL node)) = id := rfl
    rw [hcomp, List.map_id]
  refine ⟨rfl, rfl, hfst, ?_, ?_, ?_, ?_⟩
  · rw [hfst]
    exact (List.pairwise_lt_range total_nodes).filter _
  · intro p hp
    rw [printedPairs_eq] at hp
    obtain ⟨node, hnode, hpe⟩ := List.mem_map.mp hp
    have hkeep := List.of_mem_filter hnode
    subst hpe
    refine ⟨rfl, ?_⟩
    intro hne hzero
    simp only [Bool.or_eq_true, beq_iff_eq, bne_iff_ne, ne_eq] at hkeep
    rcases hkeep with h | h
    · exact hne h
    · exact h hzero
  · rw [printedPairs_eq]
    refine List.mem_map.mpr ⟨0, ?_, rfl⟩
    refine List.mem_filter.mpr ⟨List.mem_range.mpr htot, by simp⟩
  · intro node hlt hkeep
    rw [printedPairs_eq]
    refine List.mem_map.mpr ⟨node, ?_, rfl⟩
    refine List.mem_filter.mpr ⟨List.mem_range.mpr hlt, ?_⟩
    rcases hkeep with h | h <;> simp [h]

/-- Claim C8 witness: levels `[0, 0, 2]` for 3 nodes — node 0 is emitted with
level 0, node 1 (unvisited) is suppressed, node 2 follows in order. -/
theorem print_output_format_witness :
    (0:Nat) < 3 ∧ (0, nlExample 0) ∈ printedPairs 3 nlExample ∧
    (printedPairs 3 nlExample).map Prod.fst =
      (List.range 3).filter (fun node => node == 0 || nlExample node != 0) := by
  have h := print_output_format 3 nlExample (by omega)
  exact ⟨by omega, h.2.2.2.2.2.1, h.2.2.1⟩

/-- Counting occurrences in one filtered bucket. -/
theorem count_filter_key {α : Type} [DecidableEq α] (f : α → Nat) (p : Nat) (x : α)
    (l : List α) :
    (l.filter (fun e => f e == p)).count x = if f x = p then l.count x else 0 := by
  by_cases h : f x = p
  · rw [if_pos h]
    exact List.count_filter (by simp [h])
  · rw [if_neg h]
    refine List.count_eq_zero_of_not_mem ?_
    intro hmem
    have := List.of_mem_filter hmem
    simp at this
    exact h this

/-- Summing an indicator over `List.range`. -/
theorem sum_ite_range (n k c : Nat) :
    ((List.range n).map (fun p => if k = p then c else 0)).sum = if k < n then c else 0 := by
  induction n with
  | zero => simp
  | succ n ih =>
    rw [List.range_succ, List.map_append, List.sum_append, ih]
    simp only [List.map_cons, List.map_nil, List.sum_cons, List.sum_nil]
    by_cases h : k = n
    · subst h
      rw [if_pos rfl, if_neg (by omega), if_pos (by omega)]
      omega
    · rw [if_neg h]
      by_cases h2 : k < n
      · rw [if_pos h2, if_pos (by omega)]
        omega
      · rw [if_neg h2, if_neg (by omega)]
        omega

/-- Bucketing a list by any key below `n` and concatenating the buckets is a
permutation of the list. -/
theorem flatMap_range_filter_perm {α : Type} [DecidableEq α] (f : α → Nat) (n : Nat)
    (l : List α) (h : ∀ e ∈ l, f e < n) :
    ((List.range n).flatMap (fun p => l.filter (fun e => f e == p))).Perm l := by
  rw [List.perm_iff_count]
  intro x
  rw [List.count_flatMap]
  have hmap : (List.range n).map (List.count x ∘ fun p => l.filter (fun e => f e == p)) =
      (List.range n).map (fun p => if f x = p then l.count x else 0) := by
    refine List.map_congr_left ?_
    intro p _
    exact count_filter_key f p x l
  rw [hmap, sum_ite_range]
  by_cases hx : x ∈ l
  · rw [if_pos (h x hx)]
  · rw [List.count_eq_zero_of_not_mem hx]
    split_ifs <;> rfl

/-- Pointwise congruence of `flatMap` over the same index list. -/
theorem flatMap_congr_mem {α β : Type} (l : List α) (f g : α → List β)
    (h : ∀ a ∈ l, f a = g a) : l.flatMap f = l.flatMap g := by
  induction l with
  | nil => rfl
  | cons a l ih =>
    rw [List.flatMap_cons, List.flatMap_cons, h a (by simp),
      ih (fun a ha => h a (by simp [ha]))]

/-- The cursor-append binning of `partition_coo` fills bucket `q` with
exactly the edges whose destination partition is `q`, in input order. -/
theorem binEdges_eq (f : Nat × Nat → Nat) (l : List (Nat × Nat)) (q : Nat) :
    binEdges f l q = l.filter (fun e => f e == q) := by
  have aux : ∀ (l : List (Nat × Nat)) (B : Nat → List (Nat × Nat)) (q : Nat),
      (l.foldl (fun B e => fun q => if q = f e then B q ++ [e] else B q) B) q =
        B q ++ l.filter (fun e => f e == q) := by
    intro l
    induction l with
    | nil =>
      intro B q
      simp
    | cons e l ih =>
      intro B q
      simp only [List.foldl, List.filter_cons]
      rw [ih]
      by_cases h : f e = q
      · simp [h]
      · have h2 : ¬(q = f e) := fun hq => h hq.symm
        simp [h, h2]
  have := aux l (fun _ => []) q
  simpa [binEdges] using this

/-- The counting pass agrees with the bucket sizes (what the C code uses to
size its `malloc`s). -/
theorem countPass_eq (f : Nat × Nat → Nat) (l : List (Nat × Nat)) (q : Nat) :
    countPass f l q = (l.filter (fun e => f e == q)).length := by
  have aux : ∀ (l : List (Nat × Nat)) (cnt : Nat → Nat) (q : Nat),
      (l.foldl (fun cnt e => updF cnt (f e) (cnt (f e) + 1)) cnt) q =
        cnt q + (l.filter (fun e => f e == q)).length := by
    intro l
    induction l with
    | nil =>
      intro cnt q
      simp
    | cons e l ih =>
      intro cnt q
      simp only [List.foldl, List.filter_cons]
      rw [ih]
      unfold updF
      by_cases h : f e = q
      · simp only [h]
        simp
        omega
      · have h2 : ¬(q = f e) := fun hq => h hq.symm
        simp [h, h2]
  have := aux l (fun _ => 0) q
  simpa [countPass] using this

/-- The trial-division loop, started at any positive `f`, returns a positive
divisor of `n` that is at most `f` (it can always fall back to 1). -/
theorem findFactor_spec (n : Nat) : ∀ f, 0 < f →
    0 < findFactor n f ∧ findFactor n f ∣ n ∧ findFactor n f ≤ f := by
  intro f
  induction f with
  | zero => omega
  | succ f ih =>
    intro _
    rw [findFactor]
    by_cases h : n % (f + 1) = 0
    · rw [if_pos h]
      exact ⟨by omega, Nat.dvd_of_mod_eq_zero h, Nat.le_refl _⟩
    · rw [if_neg h]
      rcases Nat.eq_zero_or_pos f with hf | hf
      · subst hf
        exact absurd (Nat.mod_one n) h
      · obtain ⟨a, b, c⟩ := ih hf
        exact ⟨a, b, by omega⟩

/-- Once the scan accumulator is positive and all remaining scan indices are
positive, the `floorSqrt` fold stays positive. -/
theorem floorSqrt_fold_pos (n : Nat) : ∀ (m s acc : Nat), 1 ≤ acc → 1 ≤ s →
    1 ≤ (List.range' s m).foldl (fun acc k => if k * k ≤ n then k else acc) acc := by
  intro m
  induction m with
  | zero =>
    intro s acc hacc _
    simpa using hacc
  | succ m ih =>
    intro s acc hacc hs
    rw [List.range'_succ, List.foldl_cons]
    refine ih (s + 1) _ ?_ (by omega)
    by_cases h : s * s ≤ n
    · rw [if_pos h]
      omega
    · rw [if_neg h]
      omega

/-- For positive `n` the embedded `⌊√n⌋` is positive. -/
theorem floorSqrt_pos (n : Nat) (hn : 0 < n) : 0 < floorSqrt n := by
  unfold floorSqrt
  have hsplit : List.range (n + 1) = [0, 1] ++ List.range' 2 (n - 1) := by
    rw [List.range_eq_range']
    have h2 : List.range' 0 2 ++ List.range' 2 (n - 1) = List.range' 0 (n + 1) := by
      have := List.range'_append 0 2 (n - 1) 1
      simpa [show n - 1 + 2 = n + 1 by omega] using this
    rw [← h2]
    rfl
  rw [hsplit, List.foldl_append]
  have h01 : ([0, 1] : List Nat).foldl (fun acc k => if k * k ≤ n then k else acc) 0 = 1 := by
    simp only [List.foldl]
    rw [if_pos (by omega)]
  rw [h01]
  exact floorSqrt_fold_pos n (n - 1) 2 1 (by omega) (by omega)

/-- The grid divisors chosen by `partition_coo` are positive and their
product is the unit count. -/
theorem divs_spec (prt : Prt) (n : Nat) (hn : 0 < n) :
    0 < rowDivOf prt n ∧ 0 < colDivOf prt n ∧ rowDivOf prt n * colDivOf prt n = n := by
  cases prt with
  | Row =>
    simp only [rowDivOf, colDivOf]
    omega
  | Col =>
    simp only [rowDivOf, colDivOf]
    omega
  | TwoD =>
    obtain ⟨hpos, hdvd, _⟩ := findFactor_spec n (floorSqrt n) (floorSqrt_pos n hn)
    have h2 : (nearest_factors n).1 = findFactor n (floorSqrt n) := rfl
    have h3 : (nearest_factors n).2 = n / findFactor n (floorSqrt n) := rfl
    refine ⟨by rw [rowDivOf, h2]; exact hpos, ?_, ?_⟩
    · rw [colDivOf, h3]
      exact Nat.div_pos (Nat.le_of_dvd hn hdvd) hpos
    · rw [rowDivOf, colDivOf, h2, h3]
      exact Nat.mul_div_cancel' hdvd

/-- In every topology the destination partition of an in-range edge is its
grid index `(e.row / pr_rows) * col_div + (e.col / pr_cols)`: for Row the
column term is 0 and `col_div = 1`; for Col the row term is 0. -/
theorem edgePart_as_grid (prt : Prt) (n pr_rows pr_cols : Nat) (e : Nat × Nat)
    (hc1 : prt = Prt.Row → e.2 < pr_cols)
    (hr1 : prt = Prt.Col → e.1 < pr_rows) :
    edgePart prt pr_rows pr_cols (colDivOf prt n) e =
      e.1 / pr_rows * colDivOf prt n + e.2 / pr_cols := by
  cases prt with
  | Row =>
    simp only [edgePart, colDivOf]
    rw [Nat.div_eq_of_lt (hc1 rfl)]
    omega
  | Col =>
    simp only [edgePart, colDivOf]
    rw [Nat.div_eq_of_lt (hr1 rfl)]
    omega
  | TwoD => rfl

/-- In every topology the row offset of a partition `p < n` equals the
generic `(p / col_div) * pr_rows` (for Col it is 0 both ways). -/
theorem rowOffset_as_grid (prt : Prt) (n R p : Nat) (hp : p < n) :
    rowOffset (offsetRowOf prt) (colDivOf prt n) R p = p / colDivOf prt n * R := by
  cases prt with
  | Row => rfl
  | Col =>
    simp only [rowOffset, offsetRowOf, colDivOf]
    rw [Nat.div_eq_of_lt hp]
    simp
  | TwoD => rfl

/-- In every topology the column offset of a partition `p < n` equals the
generic `(p % col_div) * pr_cols` (for Row it is 0 both ways). -/
theorem colOffset_as_grid (prt : Prt) (n Cc p : Nat) (hp : p < n) :
    colOffset (offsetColOf prt) (colDivOf prt n) Cc p = p % colDivOf prt n * Cc := by
  cases prt with
  | Row =>
    simp only [colOffset, offsetColOf, colDivOf]
    rw [Nat.mod_one]
    simp
  | Col => rfl
  | TwoD => rfl

/-- Generic completeness core: bucketing edges by grid index, rebasing by the
per-partition offsets and adding the offsets back is a permutation of the
original edges. -/
theorem bucket_unrebase_perm (edges : List (Nat × Nat)) (n rd cdv pr_rows pr_cols : Nat)
    (f : Nat × Nat → Nat) (RO CO : Nat → Nat)
    (hprod : rd * cdv = n)
    (hfe : ∀ e ∈ edges, f e = e.1 / pr_rows * cdv + e.2 / pr_cols)
    (hRO : ∀ p, p < n → RO p = p / cdv * pr_rows)
    (hCO : ∀ p, p < n → CO p = p % cdv * pr_cols)
    (hbr : ∀ e ∈ edges, e.1 / pr_rows < rd)
    (hbc : ∀ e ∈ edges, e.2 / pr_cols < cdv) :
    ((List.range n).flatMap (fun p =>
        ((edges.filter (fun e => f e == p)).map (fun e => (e.1 - RO p, e.2 - CO p))).map
          (fun e => (e.1 + RO p, e.2 + CO p)))).Perm edges := by
  have hfb : ∀ e ∈ edges, f e < n := by
    intro e he
    rw [hfe e he]
    have h1 : e.1 / pr_rows + 1 ≤ rd := hbr e he
    have h2 : (e.1 / pr_rows + 1) * cdv ≤ rd * cdv :=
      Nat.mul_le_mul_right cdv h1
    have h4 : e.2 / pr_cols < cdv := hbc e he
    calc e.1 / pr_rows * cdv + e.2 / pr_cols
        < e.1 / pr_rows * cdv + cdv := Nat.add_lt_add_left h4 _
      _ = (e.1 / pr_rows + 1) * cdv := (Nat.succ_mul _ _).symm
      _ ≤ rd * cdv := Nat.mul_le_mul_right cdv h1
      _ = n := hprod
  have hbody : ∀ p ∈ List.range n,
      ((edges.filter (fun e => f e == p)).map (fun e => (e.1 - RO p, e.2 - CO p))).map
          (fun e => (e.1 + RO p, e.2 + CO p)) =
        edges.filter (fun e => f e == p) := by
    intro p hp
    have hplt := List.mem_range.mp hp
    rw [List.map_map]
    have hmem : ∀ e ∈ edges.filter (fun e => f e == p),
        ((fun e : Nat × Nat => (e.1 + RO p, e.2 + CO p)) ∘
          fun e : Nat × Nat => (e.1 - RO p, e.2 - CO p)) e = id e := by
      intro e hmem
      obtain ⟨he, hfp⟩ := List.mem_filter.mp hmem
      have hfp2 : f e = p := by simpa using hfp
      have hfe2 := hfe e he
      have hpc : e.2 / pr_cols < cdv := hbc e he
      have hcdv0 : 0 < cdv := Nat.lt_of_le_of_lt (Nat.zero_le _) hpc
      have hpdiv : p / cdv = e.1 / pr_rows := by
        rw [← hfp2, hfe2, Nat.mul_comm (e.1 / pr_rows) cdv,
          Nat.mul_add_div hcdv0, Nat.div_eq_of_lt hpc, Nat.add_zero]
      have hpmod : p % cdv = e.2 / pr_cols := by
        rw [← hfp2, hfe2, Nat.mul_comm (e.1 / pr_rows) cdv, Nat.mul_add_mod,
          Nat.mod_eq_of_lt hpc]
      have hro : RO p ≤ e.1 := by
        rw [hRO p hplt, hpdiv]
        exact Nat.div_mul_le_self e.1 pr_rows
      have hco : CO p ≤ e.2 := by
        rw [hCO p hplt, hpmod]
        exact Nat.div_mul_le_self e.2 pr_cols
      obtain ⟨a, b⟩ := e
      simp only [Function.comp_apply, id_eq, Prod.mk.injEq]
      constructor <;> omega
    rw [List.map_congr_left hmem, List.map_id]
  have hflat : ((List.range n).flatMap (fun p =>
      ((edges.filter (fun e => f e == p)).map (fun e => (e.1 - RO p, e.2 - CO p))).map
        (fun e => (e.1 + RO p, e.2 + CO p)))) =
      (List.range n).flatMap (fun p => edges.filter (fun e => f e == p)) :=
    flatMap_congr_mem _ _ _ hbody
  rw [hflat]
  exact flatMap_range_filter_perm f n edges hfb

/-- Claim C4: for every topology and every padded edge list with in-range
indices, `partition_coo` produces exactly `n` partitions, places every edge
in exactly one partition, and the multiset union over all partitions of
their edges — with each partition's row/col offset added back to the rebased
indices — equals the input edge multiset. -/
theorem partition_coo_complete (coo : COO) (n : Nat) (prt : Prt) (hn : 0 < n)
    (hrd : rowDivOf prt n ∣ coo.num_rows) (hcd : colDivOf prt n ∣ coo.num_cols)
    (hb : ∀ e ∈ coo.edges, e.1 < coo.num_rows ∧ e.2 < coo.num_cols) :
    (partition_coo coo n prt).length = n ∧ (unpartition coo n prt).Perm coo.edges := by
  obtain ⟨hrd0, hcd0, hprodn⟩ := divs_spec prt n hn
  constructor
  · simp [partition_coo]
  have hrows : rowDivOf prt n * (coo.num_rows / rowDivOf prt n) = coo.num_rows :=
    Nat.mul_div_cancel' hrd
  have hcols : colDivOf prt n * (coo.num_cols / colDivOf prt n) = coo.num_cols :=
    Nat.mul_div_cancel' hcd
  have hbr : ∀ e ∈ coo.edges, e.1 / (coo.num_rows / rowDivOf prt n) < rowDivOf prt n := by
    intro e he
    have hr := (hb e he).1
    have hpos : 0 < coo.num_rows / rowDivOf prt n := by
      rcases Nat.eq_zero_or_pos (coo.num_rows / rowDivOf prt n) with h0 | h0
      · rw [h0, Nat.mul_zero] at hrows
        omega
      · exact h0
    rw [Nat.div_lt_iff_lt_mul hpos]
    omega
  have hbc : ∀ e ∈ coo.edges, e.2 / (coo.num_cols / colDivOf prt n) < colDivOf prt n := by
    intro e he
    have hc := (hb e he).2
    have hpos : 0 < coo.num_cols / colDivOf prt n := by
      rcases Nat.eq_zero_or_pos (coo.num_cols / colDivOf prt n) with h0 | h0
      · rw [h0, Nat.mul_zero] at hcols
        omega
      · exact h0
    rw [Nat.div_lt_iff_lt_mul hpos]
    omega
  have hup : unpartition coo n prt =
      (List.range n).flatMap (fun p =>
        ((coo.edges.filter (fun e =>
            edgePart prt (coo.num_rows / rowDivOf prt n) (coo.num_cols / colDivOf prt n)
              (colDivOf prt n) e == p)).map
          (fun e => (e.1 - rowOffset (offsetRowOf prt) (colDivOf prt n)
                (coo.num_rows / rowDivOf prt n) p,
              e.2 - colOffset (offsetColOf prt) (colDivOf prt n)
                (coo.num_cols / colDivOf prt n) p))).map
          (fun e => (e.1 + rowOffset (offsetRowOf prt) (colDivOf prt n)
                (coo.num_rows / rowDivOf prt n) p,
              e.2 + colOffset (offsetColOf prt) (colDivOf prt n)
                (coo.num_cols / colDivOf prt n) p))) := by
    unfold unpartition
    refine flatMap_congr_mem _ _ _ ?_
    intro p hp
    have hplt := List.mem_range.mp hp
    have hget : (partition_coo coo n prt).getD p ⟨0, 0, []⟩ =
        { num_rows := coo.num_rows / rowDivOf prt n
          num_cols := coo.num_cols / colDivOf prt n
          edges := (binEdges (edgePart prt (coo.num_rows / rowDivOf prt n)
              (coo.num_cols / colDivOf prt n) (colDivOf prt n)) coo.edges p).map
            (fun e => (e.1 - rowOffset (offsetRowOf prt) (colDivOf prt n)
                  (coo.num_rows / rowDivOf prt n) p,
                e.2 - colOffset (offsetColOf prt) (colDivOf prt n)
                  (coo.num_cols / colDivOf prt n) p)) } := by
      simp only [partition_coo, List.getD_eq_getElem?_getD, List.getElem?_map,
        List.getElem?_range hplt, Option.map_some', Option.getD_some]
    rw [hget, binEdges_eq]
  rw [hup]
  refine bucket_unrebase_perm coo.edges n (rowDivOf prt n) (colDivOf prt n)
    (coo.num_rows / rowDivOf prt n) (coo.num_cols / colDivOf prt n) _ _ _ hprodn
    ?_ ?_ ?_ hbr hbc
  · intro e he
    refine edgePart_as_grid prt n _ _ e ?_ ?_
    · intro hR
      have := (hb e he).2
      subst hR
      simpa [colDivOf] using this
    · intro hC
      have := (hb e he).1
      subst hC
      simpa [rowDivOf] using this
  · intro p hp
    exact rowOffset_as_grid prt n _ p hp
  · intro p hp
    exact colOffset_as_grid prt n _ p hp

/-- Claim C4 witness: a concrete 2-D partition of a 4×4 matrix into 2 parts
(grid 1×2). -/
theorem partition_coo_complete_witness :
    (0:Nat) < 2 ∧
    (partition_coo ⟨4, 4, [(0, 1), (3, 2), (1, 0)]⟩ 2 Prt.TwoD).length = 2 ∧
    (unpartition ⟨4, 4, [(0, 1), (3, 2), (1, 0)]⟩ 2 Prt.TwoD).Perm
      [(0, 1), (3, 2), (1, 0)] := by
  have h := partition_coo_complete ⟨4, 4, [(0, 1), (3, 2), (1, 0)]⟩ 2 Prt.TwoD
    (by omega) (by decide) (by decide) (by decide)
  exact ⟨by omega, h.1, h.2⟩

/-- Row-count recurrence over a cons. -/
theorem cntRow_cons (e : Nat × Nat) (l : List (Nat × Nat)) (r : Nat) :
    cntRow (e :: l) r = cntRow l r + if e.1 = r then 1 else 0 := by
  unfold cntRow
  rw [List.countP_cons]
  by_cases h : e.1 = r
  · rw [if_pos (by simpa using h), if_pos h]
  · rw [if_neg (by simpa using h), if_neg h]

/-- No edges have a row below 0. -/
theorem cntBefore_zero (l : List (Nat × Nat)) : cntBefore l 0 = 0 := by
  unfold cntBefore
  rw [List.countP_eq_zero]
  intro e _
  simp

/-- Splitting the cumulative row count at `r`. -/
theorem cntBefore_succ (l : List (Nat × Nat)) (r : Nat) :
    cntBefore l (r + 1) = cntBefore l r + cntRow l r := by
  induction l with
  | nil => rfl
  | cons e l ih =>
    unfold cntBefore cntRow at *
    rw [List.countP_cons, List.countP_cons, List.countP_cons]
    have := ih
    by_cases h1 : e.1 < r
    · rw [if_pos (by simpa using Nat.lt_succ_of_lt h1), if_pos (by simpa using h1),
        if_neg (by simp; omega)]
      omega
    · by_cases h2 : e.1 = r
      · rw [if_pos (by simp; omega), if_neg (by simpa using h1), if_pos (by simpa using h2)]
        omega
      · rw [if_neg (by simp; omega), if_neg (by simpa using h1), if_neg (by simpa using h2)]
        omega

/-- Cumulative row counts are monotone. -/
theorem cntBefore_mono (l : List (Nat × Nat)) (r r' : Nat) (h : r ≤ r') :
    cntBefore l r ≤ cntBefore l r' := by
  unfold cntBefore
  refine List.countP_mono_left ?_
  intro e _ he
  simp only [decide_eq_true_eq] at he ⊢
  omega

/-- A row with edges is below any strict upper bound on the rows. -/
theorem cntRow_pos_lt (l : List (Nat × Nat)) (R r : Nat)
    (hb : ∀ e ∈ l, e.1 < R) (h : 0 < cntRow l r) : r < R := by
  unfold cntRow at h
  obtain ⟨e, he, hp⟩ := List.countP_pos.mp h
  have := hb e he
  simp only [beq_iff_eq] at hp
  omega

/-- Rows at or above the bound hold no edges. -/
theorem cntRow_eq_zero_of_ge (l : List (Nat × Nat)) (R r : Nat)
    (hb : ∀ e ∈ l, e.1 < R) (h : R ≤ r) : cntRow l r = 0 := by
  unfold cntRow
  rw [List.countP_eq_zero]
  intro e he
  have := hb e he
  simp only [beq_iff_eq]
  omega

/-- Bucket recurrence: matching head. -/
theorem rowBucket_cons_eq (e : Nat × Nat) (l : List (Nat × Nat)) (r : Nat) (h : e.1 = r) :
    rowBucket (e :: l) r = e.2 :: rowBucket l r := by
  unfold rowBucket
  rw [List.filter_cons, if_pos (by simpa using h), List.map_cons]

/-- Bucket recurrence: non-matching head. -/
theorem rowBucket_cons_ne (e : Nat × Nat) (l : List (Nat × Nat)) (r : Nat) (h : ¬e.1 = r) :
    rowBucket (e :: l) r = rowBucket l r := by
  unfold rowBucket
  rw [List.filter_cons, if_neg (by simpa using h)]

/-- Bucket sizes are the row counts. -/
theorem rowBucket_length (l : List (Nat × Nat)) (r : Nat) :
    (rowBucket l r).length = cntRow l r := by
  unfold rowBucket cntRow
  rw [List.length_map, List.countP_eq_length_filter]

/-- The histogram pass counts the edges of each row. -/
theorem histPass_eq (l : List (Nat × Nat)) (r : Nat) : histPass l r = cntRow l r := by
  have aux : ∀ (l : List (Nat × Nat)) (g : Nat → Nat) (r : Nat),
      (l.foldl (fun g e => updF g e.1 (g e.1 + 1)) g) r = g r + cntRow l r := by
    intro l
    induction l with
    | nil =>
      intro g r
      simp [cntRow]
    | cons e l ih =>
      intro g r
      rw [List.foldl_cons, ih, cntRow_cons]
      unfold updF
      by_cases h : r = e.1
      · subst h
        rw [if_pos rfl, if_pos rfl]
        omega
      · rw [if_neg h, if_neg fun hh => h hh.symm]
        omega
  have := aux l (fun _ => 0) r
  simpa [histPass, cntRow] using this

/-- The in-place exclusive scan turns per-row counts into their prefix sums:
below the scanned bound the array holds the sum of the counts of the earlier
rows, above it the original counts; the running sum ends at the total. -/
theorem scanPass_spec (g : Nat → Nat) : ∀ (k : Nat),
    (∀ r, (scanPass k g).1 r =
      if r < k then ((List.range r).map g).sum else g r) ∧
    (scanPass k g).2 = ((List.range k).map g).sum := by
  intro k
  induction k with
  | zero =>
    constructor
    · intro r
      rw [if_neg (by omega)]
      rfl
    · rfl
  | succ k ih =>
    obtain ⟨ih1, ih2⟩ := ih
    have hstep : scanPass (k + 1) g =
        (updF (scanPass k g).1 k (scanPass k g).2,
          (scanPass k g).2 + (scanPass k g).1 k) := by
      unfold scanPass
      rw [List.range_succ, List.foldl_append]
      rfl
    constructor
    · intro r
      rw [hstep]
      dsimp only [updF]
      by_cases h : r = k
      · rw [if_pos h, if_pos (by omega), h, ih2]
      · rw [if_neg h, ih1]
        by_cases h2 : r < k
        · rw [if_pos h2, if_pos (by omega)]
        · rw [if_neg h2, if_neg (by omega)]
    · rw [hstep]
      dsimp only
      rw [ih1, if_neg (by omega), ih2, List.range_succ, List.map_append, List.sum_append]
      simp

/-- The scatter pass advances each row's cursor by that row's edge count. -/
theorem scatterPass_cursor (l : List (Nat × Nat)) :
    ∀ (st : (Nat → Nat) × (Nat → Nat)) (r : Nat),
      (l.foldl scatterStep st).1 r = st.1 r + cntRow l r := by
  induction l with
  | nil =>
    intro st r
    simp [cntRow]
  | cons e l ih =>
    intro st r
    rw [List.foldl_cons, ih, cntRow_cons]
    unfold scatterStep updF
    dsimp only
    by_cases h : r = e.1
    · subst h
      rw [if_pos rfl, if_pos rfl]
      omega
    · rw [if_neg h, if_neg fun hh => h hh.symm]
      omega

/-- Core correctness of the scatter pass of `coo_to_csr`: when the cursor
positions `cur r + j` (for `j` below row `r`'s edge count) are pairwise
distinct, the scatter writes the `j`-th column index of row `r` (in input
order) at `cur r + j`, and leaves every other cell untouched. -/
theorem scatter_cols_aux :
    ∀ (l : List (Nat × Nat)) (cur cols : Nat → Nat),
      (∀ r j r' j', j < cntRow l r → j' < cntRow l r' →
        cur r + j = cur r' + j' → r = r' ∧ j = j') →
      (∀ r j, j < cntRow l r →
        (l.foldl scatterStep (cur, cols)).2 (cur r + j) = (rowBucket l r).getD j 0) ∧
      (∀ q, (∀ r j, j < cntRow l r → q ≠ cur r + j) →
        (l.foldl scatterStep (cur, cols)).2 q = cols q) := by
  intro l
  induction l with
  | nil =>
    intro cur cols _
    constructor
    · intro r j hj
      simp [cntRow] at hj
    · intro q _
      rfl
  | cons e l ih =>
    intro cur cols H
    have hfold : (e :: l).foldl scatterStep (cur, cols) =
        l.foldl scatterStep
          (updF cur e.1 (cur e.1 + 1), updF cols (cur e.1) e.2) := by
      rw [List.foldl_cons]
      rfl
    set cur' := updF cur e.1 (cur e.1 + 1) with hcur_def
    set cols' := updF cols (cur e.1) e.2 with hcols_def
    have hcur' : ∀ r, cur' r = cur r + (if r = e.1 then 1 else 0) := by
      intro r
      rw [hcur_def]
      unfold updF
      by_cases h : r = e.1
      · subst h
        rw [if_pos rfl, if_pos rfl]
      · rw [if_neg h, if_neg h]
        omega
    have hcnt : ∀ r, cntRow (e :: l) r = cntRow l r + (if r = e.1 then 1 else 0) := by
      intro r
      rw [cntRow_cons]
      by_cases h : r = e.1
      · subst h
        rw [if_pos rfl]
      · rw [if_neg fun hh => h hh.symm, if_neg h]
    have H' : ∀ r j r' j', j < cntRow l r → j' < cntRow l r' →
        cur' r + j = cur' r' + j' → r = r' ∧ j = j' := by
      intro r j r' j' hj hj' heq
      have e1 : cur' r + j = cur r + (j + (if r = e.1 then 1 else 0)) := by
        rw [hcur' r]
        omega
      have e2 : cur' r' + j' = cur r' + (j' + (if r' = e.1 then 1 else 0)) := by
        rw [hcur' r']
        omega
      have hj2 : j + (if r = e.1 then 1 else 0) < cntRow (e :: l) r := by
        rw [hcnt r]
        split_ifs <;> omega
      have hj2' : j' + (if r' = e.1 then 1 else 0) < cntRow (e :: l) r' := by
        rw [hcnt r']
        split_ifs <;> omega
      obtain ⟨hrr, hjj⟩ := H r _ r' _ hj2 hj2' (by omega)
      refine ⟨hrr, ?_⟩
      subst hrr
      split_ifs at hjj <;> omega
    obtain ⟨IH1, IH2⟩ := ih cur' cols' H'
    rw [hfold]
    constructor
    · intro r j hj
      by_cases hr : r = e.1
      · subst hr
        rcases j with _ | j''
        · have hnt : ∀ r' j', j' < cntRow l r' → cur e.1 + 0 ≠ cur' r' + j' := by
            intro r' j' hj' heq
            have e2 : cur' r' + j' = cur r' + (j' + (if r' = e.1 then 1 else 0)) := by
              rw [hcur' r']
              omega
            have hj2' : j' + (if r' = e.1 then 1 else 0) < cntRow (e :: l) r' := by
              rw [hcnt r']
              split_ifs <;> omega
            have h0 : 0 < cntRow (e :: l) e.1 := by
              rw [hcnt e.1, if_pos rfl]
              omega
            obtain ⟨hrr, hjj⟩ := H e.1 0 r' _ h0 hj2' (by omega)
            rw [← hrr, if_pos rfl] at hjj
            omega
          rw [rowBucket_cons_eq e l e.1 rfl, List.getD_cons_zero, IH2 _ hnt, hcols_def]
          unfold updF
          rw [if_pos (by omega)]
        · have hj'' : j'' < cntRow l e.1 := by
            have := hcnt e.1
            rw [if_pos rfl] at this
            omega
          have heq2 : cur e.1 + (j'' + 1) = cur' e.1 + j'' := by
            rw [hcur' e.1, if_pos rfl]
            omega
          rw [rowBucket_cons_eq e l e.1 rfl, List.getD_cons_succ, heq2,
            IH1 e.1 j'' hj'']
      · have hj2 : j < cntRow l r := by
          have := hcnt r
          rw [if_neg hr] at this
          omega
        have hcureq : cur' r = cur r := by
          rw [hcur' r, if_neg hr]
          omega
        rw [rowBucket_cons_ne e l r fun hh => hr hh.symm, ← hcureq]
        exact IH1 r j hj2
    · intro q hq
      have hnt' : ∀ r' j', j' < cntRow l r' → q ≠ cur' r' + j' := by
        intro r' j' hj' heq
        have e2 : cur' r' + j' = cur r' + (j' + (if r' = e.1 then 1 else 0)) := by
          rw [hcur' r']
          omega
        have hj2' : j' + (if r' = e.1 then 1 else 0) < cntRow (e :: l) r' := by
          rw [hcnt r']
          split_ifs <;> omega
        exact hq r' _ hj2' (by omega)
      have h0 : 0 < cntRow (e :: l) e.1 := by
        rw [hcnt e.1, if_pos rfl]
        omega
      have hne := hq e.1 0 h0
      rw [IH2 q hnt', hcols_def]
      unfold updF
      rw [if_neg (by omega)]

/-- Reading an updated cell. -/
theorem updF_same (g : Nat → Nat) (i v : Nat) : updF g i v i = v := by
  unfold updF
  rw [if_pos rfl]

/-- Reading a different cell. -/
theorem updF_other (g : Nat → Nat) (i v j : Nat) (h : ¬j = i) : updF g i v j = g j := by
  unfold updF
  rw [if_neg h]

/-- The restore loop shifts the array right by one on `[1, m]` and leaves
other cells alone. -/
theorem restore_aux (m : Nat) :
    ∀ (g : Nat → Nat) (x : Nat),
      ((List.range' 1 m).reverse.foldl (fun g r => updF g r (g (r - 1))) g) x =
        if 1 ≤ x ∧ x ≤ m then g (x - 1) else g x := by
  induction m with
  | zero =>
    intro g x
    rw [if_neg (by omega)]
    rfl
  | succ m ih =>
    intro g x
    have hsplit : (List.range' 1 (m + 1)).reverse =
        (1 + 1 * m) :: (List.range' 1 m).reverse := by
      rw [List.range'_concat, List.reverse_append]
      rfl
    rw [hsplit, List.foldl_cons, ih]
    unfold updF
    split_ifs <;> first | rfl | omega | (congr 1; omega) | (exfalso; omega)

/-- The histogram prefix sums are the cumulative row counts. -/
theorem sum_hist (l : List (Nat × Nat)) (k : Nat) :
    ((List.range k).map (histPass l)).sum = cntBefore l k := by
  induction k with
  | zero => simpa using (cntBefore_zero l).symm
  | succ k ihk =>
    rw [List.range_succ, List.map_append, List.sum_append, ihk, cntBefore_succ]
    simp [histPass_eq]

/-- After the scan and the final total write, the `row_ptrs` array holds the
cumulative row counts on `[0, num_rows]`. -/
theorem rp_spec (l : List (Nat × Nat)) (R x : Nat) (hx : x ≤ R) :
    updF (scanPass R (histPass l)).1 R (scanPass R (histPass l)).2 x =
      cntBefore l x := by
  have hscan := scanPass_spec (histPass l) R
  unfold updF
  by_cases h : x = R
  · rw [if_pos h, hscan.2, sum_hist, h]
  · rw [if_neg h, hscan.1 x, if_pos (by omega), sum_hist]

/-- The cursor positions `cntBefore r + j` with `j` below row `r`'s count are
pairwise distinct across rows. -/
theorem cntBefore_pos_inj (l : List (Nat × Nat)) (r j r' j' : Nat)
    (hj : j < cntRow l r) (hj' : j' < cntRow l r')
    (heq : cntBefore l r + j = cntBefore l r' + j') : r = r' ∧ j = j' := by
  rcases Nat.lt_trichotomy r r' with h | h | h
  · exfalso
    have h1 := cntBefore_succ l r
    have h2 := cntBefore_mono l (r + 1) r' (by omega)
    omega
  · exact ⟨h, by subst h; omega⟩
  · exfalso
    have h1 := cntBefore_succ l r'
    have h2 := cntBefore_mono l (r' + 1) r (by omega)
    omega

/-- The scatter pass, run on the scanned `row_ptrs` of `coo_to_csr`: the
output cell `cntBefore r + j` holds the `j`-th column index of row `r`, and
each cursor ends at the next row's start. -/
theorem scatter_on_rp (l : List (Nat × Nat)) (R : Nat) (hb : ∀ e ∈ l, e.1 < R) :
    (∀ r j, j < cntRow l r →
      (scatterPass l (updF (scanPass R (histPass l)).1 R (scanPass R (histPass l)).2)).2
        (cntBefore l r + j) = (rowBucket l r).getD j 0) ∧
    (∀ x, x ≤ R →
      (scatterPass l (updF (scanPass R (histPass l)).1 R (scanPass R (histPass l)).2)).1 x =
        cntBefore l x + cntRow l x) := by
  have hcur : ∀ x, x ≤ R →
      updF (scanPass R (histPass l)).1 R (scanPass R (histPass l)).2 x = cntBefore l x :=
    fun x hx => rp_spec l R x hx
  have H : ∀ r j r' j', j < cntRow l r → j' < cntRow l r' →
      updF (scanPass R (histPass l)).1 R (scanPass R (histPass l)).2 r + j =
        updF (scanPass R (histPass l)).1 R (scanPass R (histPass l)).2 r' + j' →
      r = r' ∧ j = j' := by
    intro r j r' j' hj hj' heq
    have hr : r < R := cntRow_pos_lt l R r hb (by omega)
    have hr' : r' < R := cntRow_pos_lt l R r' hb (by omega)
    rw [hcur r (by omega), hcur r' (by omega)] at heq
    exact cntBefore_pos_inj l r j r' j' hj hj' heq
  obtain ⟨hmain, _⟩ := scatter_cols_aux l
    (updF (scanPass R (histPass l)).1 R (scanPass R (histPass l)).2) (fun _ => 0) H
  constructor
  · intro r j hj
    have hr : r < R := cntRow_pos_lt l R r hb (by omega)
    have := hmain r j hj
    rw [hcur r (by omega)] at this
    exact this
  · intro x hx
    unfold scatterPass
    rw [scatterPass_cursor l _ x]
    dsimp only
    rw [hcur x hx]

/-- After the restore pass the `row_ptrs` hold the cumulative row counts. -/
theorem restore_on_scatter (l : List (Nat × Nat)) (R : Nat)
    (hb : ∀ e ∈ l, e.1 < R) :
    ∀ x, x ≤ R →
      restorePass R
        (scatterPass l (updF (scanPass R (histPass l)).1 R (scanPass R (histPass l)).2)).1 x =
      cntBefore l x := by
  intro x hx
  unfold restorePass
  by_cases h0 : x = 0
  · rw [h0, updF_same, cntBefore_zero]
  · rw [updF_other _ _ _ _ h0, restore_aux (R - 1) _ x]
    by_cases h1 : 1 ≤ x ∧ x ≤ R - 1
    · rw [if_pos h1, (scatter_on_rp l R hb).2 (x - 1) (by omega)]
      have hsucc := cntBefore_succ l (x - 1)
      have hx1 : x - 1 + 1 = x := by omega
      rw [hx1] at hsucc
      omega
    · rw [if_neg h1, (scatter_on_rp l R hb).2 x hx]
      have hxR : x = R := by omega
      rw [hxR, cntRow_eq_zero_of_ge l R R hb (Nat.le_refl R)]
      omega

/-- Reading a list back element-wise through `getD` over its index range. -/
theorem map_range_getD {α : Type} (b : List Nat) (F : Nat → α) :
    (List.range b.length).map (fun j => F (b.getD j 0)) = b.map F := by
  induction b with
  | nil => rfl
  | cons x t ih =>
    rw [List.length_cons, List.range_succ_eq_map, List.map_cons, List.map_cons,
      List.map_map]
    have hcongr : ∀ j ∈ List.range t.length,
        ((fun j => F ((x :: t).getD j 0)) ∘ Nat.succ) j = (fun j => F (t.getD j 0)) j := by
      intro j _
      simp [List.getD_cons_succ]
    rw [List.map_congr_left hcongr, ih, List.getD_cons_zero]

/-- Re-attaching the row index to a row's bucket recovers the filtered
edges. -/
theorem bucket_map_back (l : List (Nat × Nat)) (r : Nat) :
    (rowBucket l r).map (fun c => (r, c)) = l.filter (fun e => e.1 == r) := by
  unfold rowBucket
  rw [List.map_map]
  have hcongr : ∀ e ∈ l.filter (fun e => e.1 == r),
      ((fun c => (r, c)) ∘ Prod.snd) e = id e := by
    intro e he
    obtain ⟨_, hp⟩ := List.mem_filter.mp he
    obtain ⟨a, b⟩ := e
    simp at hp
    simp [hp]
  rw [List.map_congr_left hcongr, List.map_id]

/-- Claim C6: converting an edge list with in-range row indices to CSR and
reconstructing the edge multiset `{(r, col_idxs[k]) : row_ptrs[r] ≤ k <
row_ptrs[r+1]}` yields exactly the input edges, as a multiset. -/
theorem coo_to_csr_roundtrip (coo : COO)
    (hb : ∀ e ∈ coo.edges, e.1 < coo.num_rows) :
    (reconstruct (coo_to_csr coo)).Perm coo.edges := by
  have hRP : ∀ x, x ≤ coo.num_rows →
      (coo_to_csr coo).row_ptrs x = cntBefore coo.edges x := by
    intro x hx
    have h := restore_on_scatter coo.edges coo.num_rows hb x hx
    simpa [coo_to_csr, scatterPass] using h
  have hCI : ∀ r j, j < cntRow coo.edges r →
      (coo_to_csr coo).col_idxs (cntBefore coo.edges r + j) =
        (rowBucket coo.edges r).getD j 0 := by
    intro r j hj
    have h := (scatter_on_rp coo.edges coo.num_rows hb).1 r j hj
    simpa [coo_to_csr, scatterPass] using h
  have hnum : (coo_to_csr coo).num_rows = coo.num_rows := by
    simp [coo_to_csr]
  unfold reconstruct
  rw [hnum]
  have hbody : ∀ r ∈ List.range coo.num_rows,
      (List.range' ((coo_to_csr coo).row_ptrs r)
        ((coo_to_csr coo).row_ptrs (r + 1) - (coo_to_csr coo).row_ptrs r)).map
        (fun k => (r, (coo_to_csr coo).col_idxs k)) =
      coo.edges.filter (fun e => e.1 == r) := by
    intro r hr
    have hrlt : r < coo.num_rows := List.mem_range.mp hr
    rw [hRP r (by omega), hRP (r + 1) (by omega), cntBefore_succ]
    have hlen : cntBefore coo.edges r + cntRow coo.edges r - cntBefore coo.edges r =
        cntRow coo.edges r := by omega
    rw [hlen, List.range'_eq_map_range, List.map_map]
    have hcongr : ∀ j ∈ List.range (cntRow coo.edges r),
        ((fun k => (r, (coo_to_csr coo).col_idxs k)) ∘
          fun x => cntBefore coo.edges r + x) j =
        (fun j => (fun c => (r, c)) ((rowBucket coo.edges r).getD j 0)) j := by
      intro j hjm
      have hjlt := List.mem_range.mp hjm
      simp only [Function.comp_apply]
      rw [hCI r j hjlt]
    rw [List.map_congr_left hcongr, ← rowBucket_length coo.edges r,
      map_range_getD (rowBucket coo.edges r) (fun c => (r, c)), bucket_map_back]
  rw [flatMap_congr_mem _ _ _ hbody]
  exact flatMap_range_filter_perm Prod.fst coo.num_rows coo.edges hb

/-- Claim C6 witness: a concrete 3-row edge list round-trips through CSR. -/
theorem coo_to_csr_roundtrip_witness :
    (∀ e ∈ ([(0, 1), (2, 0), (0, 2), (1, 1)] : List (Nat × Nat)), e.1 < 3) ∧
    (reconstruct (coo_to_csr ⟨3, 3, [(0, 1), (2, 0), (0, 2), (1, 1)]⟩)).Perm
      [(0, 1), (2, 0), (0, 2), (1, 1)] :=
  ⟨by decide, coo_to_csr_roundtrip ⟨3, 3, [(0, 1), (2, 0), (0, 2), (1, 1)]⟩ (by decide)⟩
